import Mathlib

/-!
Verification of the shellRelay chat-orchestration core.

The Rust sources are embedded shallowly: Rust `String` values are modelled as
`List Char` (sequences of Unicode scalar values), `u64` as `Nat` with explicit
saturation at `2^64 - 1`, and each pure function of the source is translated to
a Lean definition of the same name.  Byte-indexed operations of the source
(`str::len`, byte slicing) are modelled through the UTF-8 byte size of each
character (`Char.utf8Size`).
-/

/-- Rust `String` contents, modelled as the list of Unicode scalar values. -/
abbrev RStr := List Char

/-- Coerce a Lean string literal into the model. -/
def rstr (s : String) : RStr := s.data

/-- Rust `char::is_whitespace`: the Unicode `White_Space` property. -/
def isRustWhitespace (c : Char) : Bool :=
  (0x09 ≤ c.toNat && c.toNat ≤ 0x0D) || c.toNat == 0x20 || c.toNat == 0x85 ||
  c.toNat == 0xA0 || c.toNat == 0x1680 ||
  (0x2000 ≤ c.toNat && c.toNat ≤ 0x200A) ||
  c.toNat == 0x2028 || c.toNat == 0x2029 || c.toNat == 0x202F ||
  c.toNat == 0x205F || c.toNat == 0x3000

/-- Rust `str::trim_start`. -/
def rustTrimStart (s : RStr) : RStr := s.dropWhile isRustWhitespace

/-- Rust `str::trim_end`. -/
def rustTrimEnd (s : RStr) : RStr := (s.reverse.dropWhile isRustWhitespace).reverse

/-- Rust `str::trim`. -/
def rustTrim (s : RStr) : RStr := rustTrimEnd (rustTrimStart s)

/-- Rust `str::split_whitespace`: the maximal runs of non-whitespace characters. -/
def splitWs (s : RStr) : List RStr :=
  match s with
  | [] => []
  | c :: rest =>
    if isRustWhitespace c then splitWs rest
    else (c :: rest.takeWhile (fun d => !isRustWhitespace d)) ::
      splitWs (rest.dropWhile (fun d => !isRustWhitespace d))
termination_by s.length
decreasing_by
  · simp
  · simp only [List.length_cons]
    exact Nat.lt_succ_of_le (List.dropWhile_sublist _).length_le

/-- Rust `Vec<&str>::join(" ")`. -/
def joinSpace : List RStr → RStr
  | [] => []
  | [w] => w
  | w :: ws => w ++ ' ' :: joinSpace ws

/-- UTF-8 byte length of a Rust string (`str::len`). -/
def utf8Len (s : RStr) : Nat := (s.map Char.utf8Size).sum

/-- The characters making up the first `n` UTF-8 bytes of a string.  When `n`
falls on a character boundary this is exactly the byte slice `&s[..n]` of the
source; on a non-boundary `n` the source panics, and the model rounds down to
the last boundary instead. -/
def utf8ByteTake (n : Nat) : RStr → RStr
  | [] => []
  | c :: rest => if c.utf8Size ≤ n then c :: utf8ByteTake (n - c.utf8Size) rest else []

/-- The characters after the first `n` UTF-8 bytes of a string, the byte slice
`&s[n..]` of the source for boundary `n` (rounded to a boundary otherwise). -/
def utf8ByteDrop (n : Nat) : RStr → RStr
  | [] => []
  | c :: rest => if c.utf8Size ≤ n then utf8ByteDrop (n - c.utf8Size) rest else c :: rest

/-- `src/client/src/ai/text.rs` / `src/client/src/sync.rs`, `short_identity`:
abbreviated identity for compact terminal layout.  The source measures `MAX`,
the head slice `[..10]` and the tail slice `[len - 6..]` in UTF-8 bytes. -/
def short_identity (identity : RStr) : RStr :=
  if utf8Len identity ≤ 18 then identity
  else
    utf8ByteTake (min 10 (utf8Len identity)) identity ++ rstr ".." ++
      utf8ByteDrop (utf8Len identity - 6) identity

/-- `src/client/src/ai/text.rs`, `truncate_for_context`: newline removal plus a
character cap with an appended `"..."` (this function counts `chars`, not
bytes, as in the source's `chars().count()` / `chars().take(..)`). -/
def truncate_for_context (text : RStr) (maxChars : Nat) : RStr :=
  let clean := rustTrim (text.map (fun c => if c == '\n' then ' ' else c))
  if clean.length ≤ maxChars then clean
  else clean.take maxChars ++ rstr "..."

/-- `src/client/src/ai/mod.rs`: hard cap on the final reply length. -/
def MAX_REPLY_CHARS : Nat := 220

/-- A sentence terminator as matched by `normalize_reply`. -/
def isTerminator (c : Char) : Bool := c == '.' || c == '!' || c == '?'

/-- The prefix of a string up to and including its second sentence terminator,
counting from `cnt` already-seen terminators; the whole string when fewer
terminators occur.  This renders the `char_indices` loop of `normalize_reply`:
the source computes the byte offset `idx + ch.len_utf8()` just after the second
terminator and slices there, which keeps exactly these characters. -/
def sentenceTake (cnt : Nat) : RStr → RStr
  | [] => []
  | c :: rest =>
    if isTerminator c then
      if 2 ≤ cnt + 1 then [c] else c :: sentenceTake (cnt + 1) rest
    else c :: sentenceTake cnt rest

/-- The part of `normalize_reply` following the computation of `compact`
(`text.split_whitespace().collect::<Vec<_>>().join(" ")`): keep at most two
sentences, cap the length at `MAX_REPLY_CHARS` with an ellipsis. -/
def normalizeCompact (compact : RStr) : RStr :=
  if compact.isEmpty then []
  else
    let two_sentences := rustTrim (sentenceTake 0 compact)
    let out :=
      if MAX_REPLY_CHARS < two_sentences.length then
        let cut := two_sentences.take MAX_REPLY_CHARS
        if !(cut.getLast? == some '.') && !(cut.getLast? == some '!') &&
            !(cut.getLast? == some '?') then
          cut ++ rstr "..."
        else cut
      else two_sentences
    if out.isEmpty then compact.take (min MAX_REPLY_CHARS compact.length) else out

/-- `src/client/src/ai/text.rs`, `normalize_reply`: collapse whitespace, keep at
most two sentences, cap the length at `MAX_REPLY_CHARS` with an ellipsis. -/
def normalize_reply (text : RStr) : RStr :=
  normalizeCompact (joinSpace (splitWs text))

/-! ### Lemmas about whitespace splitting, joining and trimming -/

/-- Adjacent characters are never both whitespace: the shape of a
whitespace-collapsed string. -/
def NoTwoWs (a b : Char) : Prop :=
  isRustWhitespace a = false ∨ isRustWhitespace b = false

theorem joinSpace_cons2 (w x : RStr) (xs : List RStr) :
    joinSpace (w :: x :: xs) = w ++ ' ' :: joinSpace (x :: xs) := rfl

theorem splitWs_words (s : RStr) :
    ∀ w ∈ splitWs s, w ≠ [] ∧ ∀ c ∈ w, isRustWhitespace c = false := by
  induction s using splitWs.induct with
  | case1 =>
    intro w hw
    simp [splitWs] at hw
  | case2 c rest h ih =>
    intro w hw
    rw [splitWs] at hw
    simp only [h, if_true] at hw
    exact ih w hw
  | case3 c rest h ih =>
    intro w hw
    rw [splitWs] at hw
    simp only [h, Bool.false_eq_true, if_false] at hw
    rcases List.mem_cons.1 hw with rfl | hw
    · refine ⟨by simp, ?_⟩
      intro d hd
      rcases List.mem_cons.1 hd with rfl | hd
      · simpa using h
      · simpa using List.mem_takeWhile_imp hd
    · exact ih w hw

theorem splitWs_eq_nil (s : RStr) :
    splitWs s = [] ↔ ∀ c ∈ s, isRustWhitespace c = true := by
  induction s using splitWs.induct with
  | case1 => simp [splitWs]
  | case2 c rest h ih =>
    rw [splitWs]
    simp only [h, if_true, ih]
    constructor
    · intro hall d hd
      rcases List.mem_cons.1 hd with rfl | hd
      · exact h
      · exact hall d hd
    · intro hall d hd
      exact hall d (List.mem_cons_of_mem _ hd)
  | case3 c rest h ih =>
    rw [splitWs]
    simp only [h, Bool.false_eq_true, if_false]
    constructor
    · intro hfalse
      exact absurd hfalse (by simp)
    · intro hall
      exact absurd (hall c (by simp)) (by simp [h])

theorem mem_joinSpace {L : List RStr} {c : Char} (hc : c ∈ joinSpace L) :
    c = ' ' ∨ ∃ w ∈ L, c ∈ w := by
  induction L with
  | nil => simp [joinSpace] at hc
  | cons w ws ih =>
    cases ws with
    | nil => exact .inr ⟨w, by simp, by simpa [joinSpace] using hc⟩
    | cons x xs =>
      rw [joinSpace_cons2] at hc
      rcases List.mem_append.1 hc with h | h
      · exact .inr ⟨w, by simp, h⟩
      · rcases List.mem_cons.1 h with rfl | h
        · exact .inl rfl
        · rcases ih h with h' | ⟨w', hw', hc'⟩
          · exact .inl h'
          · exact .inr ⟨w', List.mem_cons_of_mem _ hw', hc'⟩

theorem chain'_of_all_nonws {l : RStr}
    (h : ∀ c ∈ l, isRustWhitespace c = false) : List.Chain' NoTwoWs l := by
  induction l with
  | nil => simp
  | cons a t ih =>
    cases t with
    | nil => simp
    | cons b t2 =>
      rw [List.chain'_cons]
      exact ⟨.inl (h a (by simp)), ih fun c hc => h c (List.mem_cons_of_mem _ hc)⟩

theorem head?_joinSpace {L : List RStr}
    (hL : ∀ w ∈ L, w ≠ [] ∧ ∀ c ∈ w, isRustWhitespace c = false)
    {c : Char} (hc : (joinSpace L).head? = some c) : isRustWhitespace c = false := by
  cases L with
  | nil => simp [joinSpace] at hc
  | cons w ws =>
    have hw := hL w (by simp)
    cases ws with
    | nil =>
      simp only [joinSpace] at hc
      exact hw.2 c (List.mem_of_mem_head? hc)
    | cons x xs =>
      rw [joinSpace_cons2, List.head?_append_of_ne_nil _ hw.1] at hc
      exact hw.2 c (List.mem_of_mem_head? hc)

theorem getLast?_joinSpace {L : List RStr}
    (hL : ∀ w ∈ L, w ≠ [] ∧ ∀ c ∈ w, isRustWhitespace c = false)
    {c : Char} (hc : (joinSpace L).getLast? = some c) : isRustWhitespace c = false := by
  induction L with
  | nil => simp [joinSpace] at hc
  | cons w ws ih =>
    cases ws with
    | nil =>
      simp only [joinSpace] at hc
      exact (hL w (by simp)).2 c (List.mem_of_mem_getLast? hc)
    | cons x xs =>
      rw [joinSpace_cons2] at hc
      have hne : (' ' :: joinSpace (x :: xs)) ≠ [] := by simp
      rw [List.getLast?_append_of_ne_nil _ hne] at hc
      have hxne : joinSpace (x :: xs) ≠ [] := by
        have := (hL x (by simp)).1
        cases xs with
        | nil => simpa [joinSpace] using this
        | cons y ys =>
          rw [joinSpace_cons2]
          simp [this]
      obtain ⟨d, hd⟩ : ∃ d, (joinSpace (x :: xs)).getLast? = some d := by
        cases hgl : (joinSpace (x :: xs)).getLast? with
        | none => exact absurd (List.getLast?_eq_none_iff.1 hgl) hxne
        | some d => exact ⟨d, rfl⟩
      rw [List.getLast?_cons, hd] at hc
      simp only [Option.getD_some, Option.some.injEq] at hc
      subst hc
      exact ih (fun v hv => hL v (List.mem_cons_of_mem _ hv)) hd

theorem chain'_joinSpace {L : List RStr}
    (hL : ∀ w ∈ L, w ≠ [] ∧ ∀ c ∈ w, isRustWhitespace c = false) :
    List.Chain' NoTwoWs (joinSpace L) := by
  induction L with
  | nil => simp [joinSpace]
  | cons w ws ih =>
    cases ws with
    | nil =>
      simp only [joinSpace]
      exact chain'_of_all_nonws (hL w (by simp)).2
    | cons x xs =>
      have hrest := ih fun v hv => hL v (List.mem_cons_of_mem _ hv)
      rw [joinSpace_cons2, List.chain'_append]
      refine ⟨chain'_of_all_nonws (hL w (by simp)).2, ?_, ?_⟩
      · rw [List.chain'_cons']
        refine ⟨fun y hy => .inr (head?_joinSpace (fun v hv => hL v (List.mem_cons_of_mem _ hv)) hy), hrest⟩
      · intro a ha y hy
        refine .inl ((hL w (by simp)).2 a (List.mem_of_mem_getLast? ha))

theorem rustTrim_isInfixOf (s : RStr) : rustTrim s <:+: s := by
  have h1 : rustTrimStart s <:+ s := List.dropWhile_suffix _
  have h2 : rustTrimEnd (rustTrimStart s) <+: rustTrimStart s := by
    unfold rustTrimEnd
    rw [← List.reverse_suffix]
    simpa using List.dropWhile_suffix (l := (rustTrimStart s).reverse) isRustWhitespace
  exact h2.isInfix.trans h1.isInfix

theorem rustTrim_sublist (s : RStr) : List.Sublist (rustTrim s) s :=
  (rustTrim_isInfixOf s).sublist

theorem head?_dropWhile_ws {s : RStr} {c : Char}
    (h : (s.dropWhile isRustWhitespace).head? = some c) : isRustWhitespace c = false := by
  induction s with
  | nil => simp at h
  | cons a t ih =>
    rw [List.dropWhile_cons] at h
    by_cases ha : isRustWhitespace a
    · rw [if_pos ha] at h
      exact ih h
    · rw [if_neg ha] at h
      simp only [List.head?_cons, Option.some.injEq] at h
      subst h
      simpa using ha

theorem rustTrim_head {s : RStr} {c : Char}
    (h : (rustTrim s).head? = some c) : isRustWhitespace c = false := by
  have hpre : rustTrim s <+: rustTrimStart s := by
    unfold rustTrim rustTrimEnd
    rw [← List.reverse_suffix]
    simpa using List.dropWhile_suffix (l := (rustTrimStart s).reverse) isRustWhitespace
  obtain ⟨r, hr⟩ := hpre
  have hne : rustTrim s ≠ [] := by
    intro hnil
    rw [hnil] at h
    simp at h
  have hh : (rustTrimStart s).head? = some c := by
    rw [← hr, List.head?_append_of_ne_nil _ hne, h]
  exact head?_dropWhile_ws hh

theorem rustTrim_getLast {s : RStr} {c : Char}
    (h : (rustTrim s).getLast? = some c) : isRustWhitespace c = false := by
  unfold rustTrim rustTrimEnd at h
  rw [List.getLast?_reverse] at h
  exact head?_dropWhile_ws h

theorem rustTrim_eq_nil (s : RStr) :
    rustTrim s = [] ↔ ∀ c ∈ s, isRustWhitespace c = true := by
  constructor
  · intro h c hc
    by_contra hcw
    have hne : rustTrimStart s ≠ [] := by
      intro hnil
      have := List.dropWhile_eq_nil_iff.1 hnil c hc
      exact hcw this
    obtain ⟨d, hd⟩ : ∃ d, (rustTrimStart s).head? = some d := by
      cases hts : rustTrimStart s with
      | nil => exact absurd hts hne
      | cons a t => exact ⟨a, by simp [hts]⟩
    have hdw : isRustWhitespace d = false := head?_dropWhile_ws hd
    unfold rustTrim rustTrimEnd at h
    have h2 : (rustTrimStart s).reverse.dropWhile isRustWhitespace = [] := by
      have := congrArg List.reverse h
      simpa using this
    have := List.dropWhile_eq_nil_iff.1 h2 d (by
      rw [List.mem_reverse]
      exact List.mem_of_mem_head? hd)
    rw [this] at hdw
    simp at hdw
  · intro hall
    have h1 : rustTrimStart s = [] :=
      List.dropWhile_eq_nil_iff.2 fun c hc => hall c hc
    simp [rustTrim, h1, rustTrimEnd]

theorem rustTrim_ne_nil {s : RStr} {c : Char} (h : s.head? = some c)
    (hc : isRustWhitespace c = false) : rustTrim s ≠ [] := by
  intro hnil
  have := (rustTrim_eq_nil s).1 hnil c (List.mem_of_mem_head? h)
  rw [this] at hc
  simp at hc

/-! ### Lemmas about the sentence cut -/

theorem sentenceTake_isPrefixOf (n : Nat) (s : RStr) : sentenceTake n s <+: s := by
  induction s generalizing n with
  | nil => simp [sentenceTake]
  | cons c rest ih =>
    rw [sentenceTake]
    by_cases h : isTerminator c
    · rw [if_pos h]
      by_cases h2 : 2 ≤ n + 1
      · rw [if_pos h2]
        exact ⟨rest, rfl⟩
      · rw [if_neg h2]
        exact List.cons_prefix_cons.2 ⟨rfl, ih (n + 1)⟩
    · rw [if_neg h]
      exact List.cons_prefix_cons.2 ⟨rfl, ih n⟩

theorem sentenceTake_countP {n : Nat} (hn : n ≤ 1) (s : RStr) :
    (sentenceTake n s).countP isTerminator + n ≤ 2 := by
  induction s generalizing n with
  | nil => simpa [sentenceTake] using by omega
  | cons c rest ih =>
    rw [sentenceTake]
    by_cases h : isTerminator c
    · rw [if_pos h]
      by_cases h2 : 2 ≤ n + 1
      · rw [if_pos h2]
        have : n = 1 := by omega
        subst this
        simp [List.countP_cons, h]
      · rw [if_neg h2]
        have hn0 : n = 0 := by omega
        subst hn0
        have hih := ih (n := 1) (by omega)
        simp only [Nat.zero_add] at *
        rw [List.countP_cons, if_pos h]
        omega
    · rw [if_neg h]
      rw [List.countP_cons, if_neg h]
      exact ih hn

theorem sentenceTake_head (n : Nat) (c : Char) (rest : RStr) :
    ∃ t, sentenceTake n (c :: rest) = c :: t := by
  rw [sentenceTake]
  by_cases h : isTerminator c
  · rw [if_pos h]
    by_cases h2 : 2 ≤ n + 1
    · rw [if_pos h2]; exact ⟨[], rfl⟩
    · rw [if_neg h2]; exact ⟨_, rfl⟩
  · rw [if_neg h]; exact ⟨_, rfl⟩

/-! ### Shape of a normalized reply -/

theorem head?_of_prefix {l₁ l₂ : RStr} (h : l₁ <+: l₂) (hne : l₁ ≠ []) :
    l₂.head? = l₁.head? := by
  obtain ⟨r, rfl⟩ := h
  exact List.head?_append_of_ne_nil _ hne

theorem joinSpace_ne_nil {L : List RStr} (hL : ∀ w ∈ L, w ≠ []) (hLne : L ≠ []) :
    joinSpace L ≠ [] := by
  cases L with
  | nil => exact absurd rfl hLne
  | cons w ws =>
    cases ws with
    | nil => simpa [joinSpace] using hL w (by simp)
    | cons x xs =>
      rw [joinSpace_cons2]
      simp

theorem compact_facts (text : RStr) :
    (∀ c ∈ joinSpace (splitWs text), isRustWhitespace c = true → c = ' ') ∧
    List.Chain' NoTwoWs (joinSpace (splitWs text)) ∧
    (∀ c, (joinSpace (splitWs text)).head? = some c → isRustWhitespace c = false) := by
  refine ⟨?_, chain'_joinSpace (splitWs_words text), ?_⟩
  · intro c hc hws
    rcases mem_joinSpace hc with rfl | ⟨w, hw, hcw⟩
    · rfl
    · have := (splitWs_words text w hw).2 c hcw
      rw [this] at hws
      exact absurd hws (by simp)
  · intro c hc
    exact head?_joinSpace (splitWs_words text) hc

theorem normalizeCompact_shape (compact : RStr)
    (hws : ∀ c ∈ compact, isRustWhitespace c = true → c = ' ')
    (hchain : List.Chain' NoTwoWs compact)
    (hhead : ∀ c, compact.head? = some c → isRustWhitespace c = false) :
    (∀ c ∈ normalizeCompact compact, isRustWhitespace c = true → c = ' ') ∧
    List.Chain' NoTwoWs (normalizeCompact compact) ∧
    (∀ c, (normalizeCompact compact).head? = some c → isRustWhitespace c = false) ∧
    (∀ c, (normalizeCompact compact).getLast? = some c → isRustWhitespace c = false) ∧
    (∃ body : RStr,
      (normalizeCompact compact = body ∨ normalizeCompact compact = body ++ rstr "...") ∧
      body.countP isTerminator ≤ 2) ∧
    (normalizeCompact compact).length ≤ MAX_REPLY_CHARS + 3 := by
  by_cases hce : compact.isEmpty = true
  · have : normalizeCompact compact = [] := by
      rw [normalizeCompact, if_pos hce]
    rw [this]
    exact ⟨by simp, by simp, by simp, by simp, ⟨[], .inl rfl, by simp⟩, by simp⟩
  · have hne : compact ≠ [] := by simpa [List.isEmpty_iff] using hce
    -- facts about the two-sentence trim
    have hts_infix : rustTrim (sentenceTake 0 compact) <:+: compact :=
      (rustTrim_isInfixOf _).trans (sentenceTake_isPrefixOf 0 compact).isInfix
    have hts_mem : ∀ c ∈ rustTrim (sentenceTake 0 compact), c ∈ compact :=
      fun c hc => hts_infix.sublist.subset hc
    have hts_chain : List.Chain' NoTwoWs (rustTrim (sentenceTake 0 compact)) :=
      hchain.infix hts_infix
    have hts_count : (rustTrim (sentenceTake 0 compact)).countP isTerminator ≤ 2 := by
      have h1 := (rustTrim_sublist (sentenceTake 0 compact)).countP_le isTerminator
      have h2 := sentenceTake_countP (n := 0) (by omega) compact
      omega
    have hts_ne : rustTrim (sentenceTake 0 compact) ≠ [] := by
      obtain ⟨a, t, rfl⟩ : ∃ a t, compact = a :: t := by
        cases compact with
        | nil => exact absurd rfl hne
        | cons a t => exact ⟨a, t, rfl⟩
      obtain ⟨t', ht'⟩ := sentenceTake_head 0 a t
      rw [ht']
      exact rustTrim_ne_nil (by simp) (hhead a (by simp))
    have hell_eq : rstr "..." = ['.', '.', '.'] := rfl
    have hdot_ws : isRustWhitespace '.' = false := by decide
    have hchain_ell : List.Chain' NoTwoWs ['.', '.', '.'] :=
      List.chain'_cons.2 ⟨.inl hdot_ws,
        List.chain'_cons.2 ⟨.inl hdot_ws, List.chain'_singleton _⟩⟩
    have hcut_pre : (rustTrim (sentenceTake 0 compact)).take MAX_REPLY_CHARS <+:
        rustTrim (sentenceTake 0 compact) := List.take_prefix _ _
    have hcut_mem : ∀ c ∈ (rustTrim (sentenceTake 0 compact)).take MAX_REPLY_CHARS,
        c ∈ compact := fun c hc => hts_mem c (hcut_pre.sublist.subset hc)
    have hcut_chain : List.Chain' NoTwoWs
        ((rustTrim (sentenceTake 0 compact)).take MAX_REPLY_CHARS) :=
      hts_chain.take _
    have hcut_count : ((rustTrim (sentenceTake 0 compact)).take MAX_REPLY_CHARS).countP
        isTerminator ≤ 2 :=
      le_trans (hcut_pre.sublist.countP_le _) hts_count
    rw [normalizeCompact, if_neg hce]
    simp only []
    by_cases h1 : MAX_REPLY_CHARS < (rustTrim (sentenceTake 0 compact)).length
    · have hcut_len : ((rustTrim (sentenceTake 0 compact)).take MAX_REPLY_CHARS).length =
          MAX_REPLY_CHARS := by
        rw [List.length_take]
        omega
      have hcut_ne : (rustTrim (sentenceTake 0 compact)).take MAX_REPLY_CHARS ≠ [] := by
        intro hnil
        rw [hnil] at hcut_len
        simp [MAX_REPLY_CHARS] at hcut_len
      have hcut_head : ∀ c,
          ((rustTrim (sentenceTake 0 compact)).take MAX_REPLY_CHARS).head? = some c →
          isRustWhitespace c = false := by
        intro c hc
        have := head?_of_prefix hcut_pre hcut_ne
        exact rustTrim_head (this.trans hc)
      rw [if_pos h1]
      by_cases h2 :
          (!((rustTrim (sentenceTake 0 compact)).take MAX_REPLY_CHARS).getLast? == some '.' &&
           !((rustTrim (sentenceTake 0 compact)).take MAX_REPLY_CHARS).getLast? == some '!' &&
           !((rustTrim (sentenceTake 0 compact)).take MAX_REPLY_CHARS).getLast? == some '?') =
            true
      · rw [if_pos h2]
        have hne2 : ((rustTrim (sentenceTake 0 compact)).take MAX_REPLY_CHARS ++
            rstr "...").isEmpty ≠ true := by
          rw [hell_eq]
          simp
        rw [if_neg hne2]
        refine ⟨?_, ?_, ?_, ?_, ?_, ?_⟩
        · intro c hc hcw
          rcases List.mem_append.1 hc with hc | hc
          · exact hws c (hcut_mem c hc) hcw
          · rw [hell_eq] at hc
            simp only [List.mem_cons, List.not_mem_nil, or_false] at hc
            rcases hc with rfl | rfl | rfl <;> exact absurd hcw (by decide)
        · rw [hell_eq]
          refine List.chain'_append.2 ⟨hcut_chain, hchain_ell, ?_⟩
          intro x hx y hy
          simp only [List.head?_cons, Option.mem_def, Option.some.injEq] at hy
          subst hy
          exact .inr hdot_ws
        · intro c hc
          rw [List.head?_append_of_ne_nil _ hcut_ne] at hc
          exact hcut_head c hc
        · intro c hc
          rw [hell_eq, List.getLast?_append_of_ne_nil _ (by simp)] at hc
          simp only [List.getLast?_cons, List.getLast?_singleton] at hc
          simp only [Option.getD_some, Option.some.injEq] at hc
          subst hc
          exact hdot_ws
        · exact ⟨_, .inr rfl, hcut_count⟩
        · rw [List.length_append, hcut_len, hell_eq]
          simp
      · rw [if_neg h2]
        have hterm : ((rustTrim (sentenceTake 0 compact)).take MAX_REPLY_CHARS).getLast? =
              some '.' ∨
            ((rustTrim (sentenceTake 0 compact)).take MAX_REPLY_CHARS).getLast? = some '!' ∨
            ((rustTrim (sentenceTake 0 compact)).take MAX_REPLY_CHARS).getLast? = some '?' := by
          rcases hgl : ((rustTrim (sentenceTake 0 compact)).take MAX_REPLY_CHARS).getLast? with
            _ | c
          · exact absurd (by rw [hgl]; rfl) h2
          · by_cases e1 : c = '.'
            · exact .inl (by subst e1; rfl)
            · by_cases e2 : c = '!'
              · exact .inr (.inl (by subst e2; rfl))
              · by_cases e3 : c = '?'
                · exact .inr (.inr (by subst e3; rfl))
                · exact absurd (by rw [hgl]; simp [e1, e2, e3]) h2
        have hne3 : ((rustTrim (sentenceTake 0 compact)).take MAX_REPLY_CHARS).isEmpty ≠
            true := by
          simpa [List.isEmpty_iff] using hcut_ne
        rw [if_neg hne3]
        refine ⟨?_, hcut_chain, hcut_head, ?_, ⟨_, .inl rfl, hcut_count⟩, ?_⟩
        · intro c hc hcw
          exact hws c (hcut_mem c hc) hcw
        · intro c hc
          rcases hterm with ht | ht | ht <;>
            (rw [ht] at hc; simp only [Option.some.injEq] at hc; subst hc; decide)
        · rw [hcut_len]
          omega
    · rw [if_neg h1]
      have hne4 : (rustTrim (sentenceTake 0 compact)).isEmpty ≠ true := by
        simpa [List.isEmpty_iff] using hts_ne
      rw [if_neg hne4]
      refine ⟨?_, hts_chain, ?_, ?_, ⟨_, .inl rfl, hts_count⟩, ?_⟩
      · intro c hc hcw
        exact hws c (hts_mem c hc) hcw
      · intro c hc
        exact rustTrim_head hc
      · intro c hc
        exact rustTrim_getLast hc
      · omega

theorem normalizeCompact_ne_nil (compact : RStr)
    (hhead : ∀ c, compact.head? = some c → isRustWhitespace c = false)
    (hne : compact ≠ []) : normalizeCompact compact ≠ [] := by
  have hce : compact.isEmpty ≠ true := by simpa [List.isEmpty_iff] using hne
  have hts_ne : rustTrim (sentenceTake 0 compact) ≠ [] := by
    obtain ⟨a, t, rfl⟩ : ∃ a t, compact = a :: t := by
      cases compact with
      | nil => exact absurd rfl hne
      | cons a t => exact ⟨a, t, rfl⟩
    obtain ⟨t', ht'⟩ := sentenceTake_head 0 a t
    rw [ht']
    exact rustTrim_ne_nil (by simp) (hhead a (by simp))
  have hlen0 : compact.length ≠ 0 := fun h0 => hne (List.length_eq_zero.1 h0)
  have hmax : MAX_REPLY_CHARS = 220 := rfl
  have hell_eq : rstr "..." = ['.', '.', '.'] := rfl
  rw [normalizeCompact, if_neg hce]
  simp only []
  split_ifs with h1 h2 h3 h4 h5 <;>
    first
      | (intro hnil
         have hl := congrArg List.length hnil
         simp only [List.length_take, List.length_nil] at hl
         omega)
      | exact hts_ne
      | simp [hell_eq]

theorem normalizeCompact_eq_nil (compact : RStr)
    (hhead : ∀ c, compact.head? = some c → isRustWhitespace c = false) :
    normalizeCompact compact = [] ↔ compact = [] := by
  constructor
  · intro h
    by_contra hne
    exact normalizeCompact_ne_nil compact hhead hne h
  · intro h
    subst h
    rw [normalizeCompact]
    simp

/-! ### The reply pipeline around `normalize_reply` -/

/-- Roles of bot conversation history entries (`src/client/src/state.rs`). -/
inductive AiRole
  | user
  | assistant
deriving DecidableEq

/-- One conversation history entry (`src/client/src/state.rs`). -/
structure AiHistoryEntry where
  role : AiRole
  content : RStr
deriving DecidableEq

/-- `src/client/src/ai/mod.rs`: cap on stored history turns per bot. -/
def MAX_HISTORY_ENTRIES : Nat := 12

/-- `src/client/src/ai/mod.rs`, `trim_history`: drop the oldest entries beyond
the cap. -/
def trim_history (history : List AiHistoryEntry) : List AiHistoryEntry :=
  if MAX_HISTORY_ENTRIES < history.length then
    history.drop (history.length - MAX_HISTORY_ENTRIES)
  else history

/-- The error text `fetch_ollama_reply` produces for an empty normalized reply. -/
def emptyReplyError : RStr := rstr "resposta vazia do modelo"

/-- The tail of `fetch_ollama_reply` (`src/client/src/ai/mod.rs`) once the
generative service has returned raw message content: normalize it, and fail
with the empty-reply error exactly when the normalized reply is empty. -/
def modelReplyResult (raw : RStr) : Except RStr RStr :=
  let reply := normalize_reply raw
  if reply.isEmpty then .error emptyReplyError else .ok reply

/-- The history update performed by the worker closure of `request_bot_reply`
(`src/client/src/ai/mod.rs`): on success the reply is appended as an
`Assistant` turn and the history trimmed; on failure the history is left
unchanged (only a local system message is emitted). -/
def applyFetchResult (history : List AiHistoryEntry) :
    Except RStr RStr → List AiHistoryEntry
  | .ok reply => trim_history (history ++ [⟨.assistant, reply⟩])
  | .error _ => history

/-- C6: for every input, `normalize_reply` returns a string whose whitespace is
collapsed (its only whitespace character is the single space, no two spaces are
adjacent, and it neither starts nor ends with whitespace), which consists of a
clause body containing at most two sentence-terminator characters optionally
followed by an appended ellipsis (everything beyond the second terminator is
cut), and whose character count never exceeds `MAX_REPLY_CHARS + 3`. -/
theorem normalize_reply_spec (text : RStr) :
    (∀ c ∈ normalize_reply text, isRustWhitespace c = true → c = ' ') ∧
    List.Chain' NoTwoWs (normalize_reply text) ∧
    (∀ c, (normalize_reply text).head? = some c → isRustWhitespace c = false) ∧
    (∀ c, (normalize_reply text).getLast? = some c → isRustWhitespace c = false) ∧
    (∃ body : RStr,
      (normalize_reply text = body ∨ normalize_reply text = body ++ rstr "...") ∧
      body.countP isTerminator ≤ 2) ∧
    (normalize_reply text).length ≤ MAX_REPLY_CHARS + 3 := by
  obtain ⟨h1, h2, h3⟩ := compact_facts text
  exact normalizeCompact_shape _ h1 h2 h3

/-- C10: `normalize_reply` returns the empty string exactly when the input has
no non-whitespace character; consequently the reply pipeline raises the
"resposta vazia do modelo" error exactly for empty or all-whitespace raw model
output, and in that case no `Assistant` entry is appended to the history. -/
theorem empty_reply_spec (raw : RStr) (history : List AiHistoryEntry) :
    (normalize_reply raw = [] ↔ ∀ c ∈ raw, isRustWhitespace c = true) ∧
    (modelReplyResult raw = .error emptyReplyError ↔
      ∀ c ∈ raw, isRustWhitespace c = true) ∧
    (modelReplyResult raw = .error emptyReplyError →
      applyFetchResult history (modelReplyResult raw) = history) := by
  obtain ⟨hws, hch, hhead⟩ := compact_facts raw
  have hnil : normalize_reply raw = [] ↔ ∀ c ∈ raw, isRustWhitespace c = true := by
    rw [normalize_reply, normalizeCompact_eq_nil _ hhead]
    constructor
    · intro h
      have hsplit : splitWs raw = [] := by
        by_contra hs
        exact joinSpace_ne_nil (fun w hw => (splitWs_words raw w hw).1) hs h
      exact (splitWs_eq_nil raw).1 hsplit
    · intro h
      rw [(splitWs_eq_nil raw).2 h]
      rfl
  refine ⟨hnil, ?_, ?_⟩
  · simp only [modelReplyResult]
    constructor
    · intro h
      by_cases he : (normalize_reply raw).isEmpty = true
      · exact hnil.1 (List.isEmpty_iff.1 he)
      · rw [if_neg he] at h
        exact absurd h (by simp)
    · intro h
      rw [if_pos (List.isEmpty_iff.2 (hnil.2 h))]
  · intro h
    rw [h]
    rfl

/-! ### The reconciler data model (`src/client/src/ui/ui_state.rs`, state.rs) -/

/-- `src/client/src/ui/ui_state.rs`, `UiMessage`; ids are `u64`. -/
structure UiMessage where
  id : Nat
  sender : RStr
  text : RStr
  sent_at : RStr
deriving DecidableEq

/-- `src/client/src/ui/ui_state.rs`, `UiUser`. -/
structure UiUser where
  identity : RStr
  name : RStr
  online : Bool
deriving DecidableEq

/-- The fields of `UiState` touched by the reconciler. -/
structure UiState where
  users_presence_initialized : Bool := false
  next_system_message_id : Nat := 0
  system_messages : List UiMessage := []
  messages : List UiMessage := []
  users : List UiUser := []
  users_scroll : Nat := 0
deriving DecidableEq

/-- The fields of `AppState` (`src/client/src/state.rs`) the claims need. -/
structure AppState where
  ui : UiState := {}
  my_identity : Option RStr := none
deriving DecidableEq

/-- One past the largest `u64` value. -/
def U64_LIMIT : Nat := 2 ^ 64

/-- Rust `u64::saturating_add` on values below `U64_LIMIT`. -/
def satAdd64 (a b : Nat) : Nat := min (a + b) (U64_LIMIT - 1)

/-- `src/client/src/sync.rs`: base of the locally synthesized id range. -/
def SYSTEM_MESSAGE_ID_BASE : Nat := 1000000000000000000

/-- `src/client/src/sync.rs`: cap of the local system-message log. -/
def MAX_SYSTEM_MESSAGES : Nat := 200

/-- The id the next local synthesis operation will assign:
`SYSTEM_MESSAGE_ID_BASE.saturating_add(s.ui.next_system_message_id)`. -/
def nextLocalId (s : AppState) : Nat :=
  satAdd64 SYSTEM_MESSAGE_ID_BASE s.ui.next_system_message_id

/-- The cap applied to `ui.system_messages`: drop the oldest entries beyond
`MAX_SYSTEM_MESSAGES` (the `drain(0..to_drop)` of the source). -/
def capSystemMessages (l : List UiMessage) : List UiMessage :=
  if MAX_SYSTEM_MESSAGES < l.length then l.drop (l.length - MAX_SYSTEM_MESSAGES)
  else l

/-- Order used by `sort_by_key(|m| m.id)`.  Rust's stable slice sort is
modelled by insertion sort, which computes the same stable result. -/
def msgLe (a b : UiMessage) : Prop := a.id ≤ b.id

instance : DecidableRel msgLe := fun a b => Nat.decLe a.id b.id

instance : IsTotal UiMessage msgLe := ⟨fun a b => Nat.le_total a.id b.id⟩

instance : IsTrans UiMessage msgLe := ⟨fun _ _ _ hab hbc => Nat.le_trans hab hbc⟩

/-- `messages.sort_by_key(|m| m.id)` of the source. -/
def sortMessages (l : List UiMessage) : List UiMessage := List.insertionSort msgLe l

/-- Model of Rust `char`/`str` lowercasing restricted to the ASCII range (the
only characters occurring in this repository's bot names and identities). -/
def toLowerChar (c : Char) : Char :=
  if 'A' ≤ c ∧ c ≤ 'Z' then Char.ofNat (c.toNat + 32) else c

/-- `str::to_lowercase`, under the ASCII restriction of `toLowerChar`. -/
def lowerStr (s : RStr) : RStr := s.map toLowerChar

/-- Lexicographic order on strings by scalar value; this agrees with Rust's
`str` ordering, which compares UTF-8 bytes (UTF-8 preserves scalar order). -/
def lexLe : RStr → RStr → Bool
  | [], _ => true
  | _ :: _, [] => false
  | a :: as_, b :: bs =>
    if a.toNat < b.toNat then true
    else if b.toNat < a.toNat then false
    else lexLe as_ bs

/-- The user comparator of `sync_from_tables`
(`b.online.cmp(&a.online).then_with(name lowercase ascending)` is not
`Greater`): online users first, then case-insensitive name order. -/
def userLe (a b : UiUser) : Prop :=
  ((a.online && !b.online) ||
    (a.online == b.online && lexLe (lowerStr a.name) (lowerStr b.name))) = true

instance : DecidableRel userLe := fun a b => by
  unfold userLe
  infer_instance

/-- `users.sort_by(...)` of `sync_from_tables`. -/
def sortUsers (l : List UiUser) : List UiUser := List.insertionSort userLe l

/-- Lookup in the `identity → online` hash maps of `sync_from_tables`.  The
maps are collected from an iterator, so on duplicate keys the later row wins;
absent identities read as `false` (`copied().unwrap_or(false)`). -/
def onlineLookup (usersList : List UiUser) (id : RStr) : Bool :=
  ((usersList.reverse.find? (fun u => u.identity == id)).map UiUser.online).getD false

/-- `src/client/src/sync.rs`, `display_user_name`. -/
def display_user_name (u : UiUser) : RStr :=
  if !(rustTrim u.name).isEmpty then u.name else short_identity u.identity

/-- The presence diff of `sync_from_tables`: a "connected" line per user now
online that was not online before, then a "disconnected" line per previously
tracked user that was online and no longer is. -/
def presenceEvents (previous current : List UiUser) : List RStr :=
  let connected := current.foldl (fun acc u =>
    if u.online && !(onlineLookup previous u.identity) then
      acc ++ [display_user_name u ++ rstr " connected"]
    else acc) []
  previous.foldl (fun acc u =>
    if u.online && !(onlineLookup current u.identity) then
      acc ++ [display_user_name u ++ rstr " disconnected"]
    else acc) connected

/-- The presence events one `sync_from_tables` call emits: none before
presence tracking is initialized (the very first snapshot only sets the
flag). -/
def sync_presence_events (s : AppState) (users : List UiUser) : List RStr :=
  if s.ui.users_presence_initialized then presenceEvents s.ui.users users else []

/-- Pushing one presence event into the state as a local "System" message
(the body of the `for text in presence_events` loop of `sync_from_tables`). -/
def push_presence_event (st : AppState) (text : RStr) : AppState :=
  { st with ui := { st.ui with
      next_system_message_id := satAdd64 st.ui.next_system_message_id 1,
      system_messages := st.ui.system_messages ++
        [⟨nextLocalId st, rstr "System", text, []⟩] } }

/-- `src/client/src/sync.rs`, `sync_from_tables`: reconcile one remote
snapshot (message rows and user rows) into the local state. -/
def sync_from_tables (remoteMessages : List UiMessage) (remoteUsers : List UiUser)
    (s : AppState) : AppState :=
  let messages := sortMessages remoteMessages
  let users := sortUsers remoteUsers
  let events := sync_presence_events s users
  let st := events.foldl push_presence_event
    { s with ui := { s.ui with users_presence_initialized := true } }
  let sys := capSystemMessages st.ui.system_messages
  { st with ui := { st.ui with
      system_messages := sys,
      messages := sortMessages (messages ++ sys),
      users := users,
      users_scroll := min st.ui.users_scroll (users.length - 1) } }

/-- `src/client/src/sync.rs`, `rebuild_messages_with_system`. -/
def rebuild_messages_with_system (s : AppState) : AppState :=
  let nonSystem := s.ui.messages.filter (fun m => m.id < SYSTEM_MESSAGE_ID_BASE)
  { s with ui := { s.ui with
      messages := sortMessages (nonSystem ++ s.ui.system_messages) } }

/-- `src/client/src/sync.rs`, `add_local_system_message`. -/
def add_local_system_message (s : AppState) (sender text : RStr) : AppState :=
  let sys := capSystemMessages
    (s.ui.system_messages ++ [⟨nextLocalId s, sender, text, []⟩])
  rebuild_messages_with_system { s with ui := { s.ui with
      next_system_message_id := satAdd64 s.ui.next_system_message_id 1,
      system_messages := sys } }

/-! ### Presence reconciliation (claim C1) -/

theorem foldl_append_filter {α : Type} (p : α → Bool) (f : α → RStr) :
    ∀ (l : List α) (acc : List RStr),
      l.foldl (fun acc u => if p u then acc ++ [f u] else acc) acc =
        acc ++ (l.filter p).map f := by
  intro l
  induction l with
  | nil => intro acc; simp
  | cons u t ih =>
    intro acc
    rw [List.foldl_cons]
    by_cases hp : p u = true
    · rw [if_pos hp, ih, List.filter_cons_of_pos hp]
      simp
    · rw [if_neg (by simpa using hp), ih,
        List.filter_cons_of_neg (by simpa using hp)]

theorem presenceEvents_eq (previous current : List UiUser) :
    presenceEvents previous current =
      (current.filter (fun u => u.online && !(onlineLookup previous u.identity))).map
        (fun u => display_user_name u ++ rstr " connected") ++
      (previous.filter (fun u => u.online && !(onlineLookup current u.identity))).map
        (fun u => display_user_name u ++ rstr " disconnected") := by
  unfold presenceEvents
  rw [foldl_append_filter, foldl_append_filter]
  simp

/-- C1: on the very first snapshot (presence not yet initialized) the
reconciler emits no synthetic presence message and leaves the system-message
log unchanged apart from the cap; on every later snapshot it emits exactly one
"`<name>` connected" message per user that is online now but was not online
before (or was untracked), then exactly one "`<name>` disconnected" message per
previously tracked user that was online and is not online now (or disappeared),
and nothing else. -/
theorem presence_reconciliation_spec (s : AppState) (users : List UiUser)
    (msgs : List UiMessage) (usersR : List UiUser) :
    (s.ui.users_presence_initialized = false → sync_presence_events s users = []) ∧
    (s.ui.users_presence_initialized = true →
      sync_presence_events s users =
        (users.filter (fun u => u.online && !(onlineLookup s.ui.users u.identity))).map
          (fun u => display_user_name u ++ rstr " connected") ++
        (s.ui.users.filter (fun u => u.online && !(onlineLookup users u.identity))).map
          (fun u => display_user_name u ++ rstr " disconnected")) ∧
    (s.ui.users_presence_initialized = false →
      (sync_from_tables msgs usersR s).ui.system_messages =
        capSystemMessages s.ui.system_messages ∧
      (sync_from_tables msgs usersR s).ui.next_system_message_id =
        s.ui.next_system_message_id) := by
  refine ⟨?_, ?_, ?_⟩
  · intro h
    simp [sync_presence_events, h]
  · intro h
    simp only [sync_presence_events, h, if_true]
    exact presenceEvents_eq s.ui.users users
  · intro h
    constructor <;>
      simp [sync_from_tables, sync_presence_events, h]

/-- Witness for C1 at a concrete pair of snapshots: an uninitialized state
emits nothing, and an initialized state whose user "Bob" went offline emits
exactly one "Bob disconnected" event. -/
theorem presence_reconciliation_witness :
    sync_presence_events
      { ui := { users_presence_initialized := false,
                users := [⟨rstr "id_a", rstr "Ana", true⟩] } }
      [⟨rstr "id_a", rstr "Ana", true⟩] = [] ∧
    sync_presence_events
      { ui := { users_presence_initialized := true,
                users := [⟨rstr "id_a", rstr "Ana", true⟩,
                          ⟨rstr "id_b", rstr "Bob", true⟩] } }
      [⟨rstr "id_a", rstr "Ana", true⟩] = [rstr "Bob disconnected"] := by
  constructor
  · exact (presence_reconciliation_spec _ _ [] []).1 rfl
  · rw [(presence_reconciliation_spec _ _ [] []).2.1 rfl]
    decide

/-! ### Synthetic message ids (claim C2) -/

theorem base_le_nextLocalId (s : AppState) :
    SYSTEM_MESSAGE_ID_BASE ≤ nextLocalId s := by
  unfold nextLocalId satAdd64
  refine le_min (Nat.le_add_right _ _) ?_
  norm_num [SYSTEM_MESSAGE_ID_BASE, U64_LIMIT]

theorem capSystemMessages_subset (l : List UiMessage) :
    ∀ m ∈ capSystemMessages l, m ∈ l := by
  intro m hm
  unfold capSystemMessages at hm
  split_ifs at hm with h
  · exact (List.drop_sublist _ _).subset hm
  · exact hm

theorem foldl_push_system_mem (evs : List RStr) (st : AppState) :
    ∀ m ∈ (evs.foldl push_presence_event st).ui.system_messages,
      m ∈ st.ui.system_messages ∨ SYSTEM_MESSAGE_ID_BASE ≤ m.id := by
  induction evs generalizing st with
  | nil =>
    intro m hm
    exact .inl hm
  | cons e rest ih =>
    intro m hm
    rw [List.foldl_cons] at hm
    rcases ih (push_presence_event st e) m hm with h | h
    · simp only [push_presence_event] at h
      rcases List.mem_append.1 h with h | h
      · exact .inl h
      · simp only [List.mem_singleton] at h
        subst h
        exact .inr (base_le_nextLocalId st)
    · exact .inr h

theorem nextLocalId_push (s : AppState) (e : RStr)
    (h : SYSTEM_MESSAGE_ID_BASE + s.ui.next_system_message_id + 1 < U64_LIMIT) :
    nextLocalId (push_presence_event s e) = nextLocalId s + 1 := by
  have hU : U64_LIMIT = 2 ^ 64 := rfl
  have hB : SYSTEM_MESSAGE_ID_BASE = 1000000000000000000 := rfl
  simp only [nextLocalId, push_presence_event, satAdd64] at *
  rw [hU] at h ⊢
  rw [hB] at h ⊢
  norm_num at h ⊢
  omega

theorem nextLocalId_add_local (s : AppState) (sender text : RStr)
    (h : SYSTEM_MESSAGE_ID_BASE + s.ui.next_system_message_id + 1 < U64_LIMIT) :
    nextLocalId (add_local_system_message s sender text) = nextLocalId s + 1 := by
  have hU : U64_LIMIT = 2 ^ 64 := rfl
  have hB : SYSTEM_MESSAGE_ID_BASE = 1000000000000000000 := rfl
  simp only [nextLocalId, add_local_system_message, rebuild_messages_with_system,
    satAdd64] at *
  rw [hU] at h ⊢
  rw [hB] at h ⊢
  norm_num at h ⊢
  omega

/-- C2 (amended): every locally synthesized message carries an id at least
`SYSTEM_MESSAGE_ID_BASE`; the ids assigned by successive synthesis operations
(`add_local_system_message`, and each presence-event push inside
`sync_from_tables`) are strictly increasing as long as the saturating `u64`
counter is not exhausted (`BASE + counter + 1 < 2^64`); and after every
reconciliation or local insertion `ui.messages` is sorted by id in
non-decreasing order. -/
theorem system_ids_spec (s : AppState) (sender text : RStr)
    (msgs : List UiMessage) (users : List UiUser)
    (h : SYSTEM_MESSAGE_ID_BASE + s.ui.next_system_message_id + 1 < U64_LIMIT) :
    (∀ m ∈ (add_local_system_message s sender text).ui.system_messages,
      m ∈ s.ui.system_messages ∨ SYSTEM_MESSAGE_ID_BASE ≤ m.id) ∧
    (∀ m ∈ (sync_from_tables msgs users s).ui.system_messages,
      m ∈ s.ui.system_messages ∨ SYSTEM_MESSAGE_ID_BASE ≤ m.id) ∧
    nextLocalId s < nextLocalId (add_local_system_message s sender text) ∧
    (∀ e : RStr, nextLocalId s < nextLocalId (push_presence_event s e)) ∧
    List.Sorted msgLe (add_local_system_message s sender text).ui.messages ∧
    List.Sorted msgLe (sync_from_tables msgs users s).ui.messages := by
  refine ⟨?_, ?_, ?_, ?_, ?_, ?_⟩
  · intro m hm
    simp only [add_local_system_message, rebuild_messages_with_system] at hm
    have hm2 := capSystemMessages_subset _ m hm
    rcases List.mem_append.1 hm2 with h2 | h2
    · exact .inl h2
    · simp only [List.mem_singleton] at h2
      subst h2
      exact .inr (base_le_nextLocalId s)
  · intro m hm
    simp only [sync_from_tables] at hm
    have hm2 := capSystemMessages_subset _ m hm
    rcases foldl_push_system_mem _ _ m hm2 with h2 | h2
    · exact .inl h2
    · exact .inr h2
  · rw [nextLocalId_add_local s sender text h]
    omega
  · intro e
    rw [nextLocalId_push s e h]
    omega
  · simp only [add_local_system_message, rebuild_messages_with_system]
    exact List.sorted_insertionSort msgLe _
  · simp only [sync_from_tables]
    exact List.sorted_insertionSort msgLe _

/-- Witness for C2 at the default (fresh) state: the hypotheses hold and, in
particular, one local insertion strictly increases the next synthetic id. -/
theorem system_ids_witness :
    SYSTEM_MESSAGE_ID_BASE + ({} : AppState).ui.next_system_message_id + 1 <
      U64_LIMIT ∧
    nextLocalId {} <
      nextLocalId (add_local_system_message {} (rstr "System") (rstr "x")) := by
  have h : SYSTEM_MESSAGE_ID_BASE + ({} : AppState).ui.next_system_message_id + 1 <
      U64_LIMIT := by
    norm_num [SYSTEM_MESSAGE_ID_BASE, U64_LIMIT]
  exact ⟨h, (system_ids_spec {} (rstr "System") (rstr "x") [] [] h).2.2.1⟩

/-- C2 counterexample: in a state whose saturating id counter has reached
`u64::MAX`, a further local insertion does not assign a strictly larger id —
both the operation at that state and the next one assign `u64::MAX` — so the
unconditional "strictly increasing" reading of the claim fails. -/
theorem system_ids_counterexample :
    ¬ nextLocalId { ui := { next_system_message_id := U64_LIMIT - 1 } } <
      nextLocalId (add_local_system_message
        { ui := { next_system_message_id := U64_LIMIT - 1 } }
        (rstr "System") (rstr "x")) := by
  decide

/-! ### The response scheduler (`src/client/src/app.rs`) -/

/-- `src/client/src/ai/bots.rs`, `AiBotProfile`. -/
structure AiBotProfile where
  name : RStr
  profession : RStr
deriving DecidableEq

/-- The scheduler-visible part of `AiBotRuntime` (`src/client/src/app.rs`):
the profile, the value of the `online` atomic at this tick, and the connection
identity (`None` when the bot has not connected, or when its identity lock is
poisoned — `lock().ok().and_then(|id| id.clone())`). -/
structure AiBotRuntime where
  profile : AiBotProfile
  online : Bool
  identity : Option RStr
deriving DecidableEq

/-- `src/client/src/ai/config.rs`: bot-to-bot chain cap. -/
def MAX_AI_CHAIN_MESSAGES : Nat := 5

/-- Rust `str::contains` with a string pattern: substring containment.  On
valid UTF-8, byte-level containment coincides with containment of the scalar
sequence, since UTF-8 is self-synchronizing. -/
def containsSub (hay needle : RStr) : Bool :=
  (List.range (hay.length + 1)).any (fun i => needle.isPrefixOf (hay.drop i))

/-- The sender-exclusion filter
`bot.identity.lock().ok().and_then(clone).is_none_or(|id| id != sender)` used
by both `find_directed_bot` and `choose_responder_bot`. -/
def identityAllows (bot : AiBotRuntime) (sender_identity : RStr) : Bool :=
  match bot.identity with
  | none => true
  | some id => id != sender_identity

/-- `src/client/src/app.rs`, `find_directed_bot`: the first online bot, other
than the sender, whose lowercased name occurs in the lowercased message. -/
def find_directed_bot (ai_bots : List AiBotRuntime)
    (sender_identity message_text : RStr) : Option AiBotRuntime :=
  let lowered_message := lowerStr message_text
  ((ai_bots.filter (fun b => b.online)).filter
      (fun b => identityAllows b sender_identity)).find?
    (fun b => containsSub lowered_message (lowerStr b.profile.name))

/-- `candidates.choose(&mut rng)`: uniform choice from a slice, the random
draw abstracted into an arbitrary index `pick`; `None` exactly on an empty
slice. -/
def chooseFrom (l : List AiBotRuntime) (pick : Nat) : Option AiBotRuntime :=
  if l.isEmpty then none else l[pick % l.length]?

/-- `src/client/src/app.rs`, `choose_responder_bot`.  The two random draws are
abstracted into parameters: `draw` is the outcome of `rng.random_bool(..)`
(the chance constant — `AI_TO_AI_REPLY_CHANCE_WITH_HUMANS` when
`online_human_count > 0`, `AI_TO_AI_REPLY_CHANCE_IDLE` otherwise — only shapes
the distribution of `draw`), and `pick` resolves `candidates.choose`. -/
def choose_responder_bot (ai_bots : List AiBotRuntime) (bot_identities : List RStr)
    (sender_identity : RStr) (sender_is_ai : Bool) (consecutive_ai_messages : Nat)
    (online_human_count : Nat) (draw : Bool) (pick : Nat) : Option AiBotRuntime :=
  let candidates := ai_bots.filter (fun b => b.online)
  if sender_is_ai then
    if MAX_AI_CHAIN_MESSAGES ≤ consecutive_ai_messages then none
    else if !draw then none
    else
      chooseFrom (candidates.filter (fun b => identityAllows b sender_identity)) pick
  else if sender_identity == rstr "System" ||
      bot_identities.contains sender_identity then none
  else chooseFrom candidates pick

/-- The responder selection the scheduler performs for one new message
(`run_app`, `directed_bot.or_else(choose_responder_bot ..)`): a directed
mention wins, otherwise the probabilistic path decides. -/
def scheduler_select (ai_bots : List AiBotRuntime) (bot_identities : List RStr)
    (sender_identity message_text : RStr) (sender_is_ai : Bool)
    (consecutive_ai_messages : Nat) (online_human_count : Nat) (draw : Bool)
    (pick : Nat) : Option AiBotRuntime :=
  match find_directed_bot ai_bots sender_identity message_text with
  | some bot => some bot
  | none =>
    choose_responder_bot ai_bots bot_identities sender_identity sender_is_ai
      consecutive_ai_messages online_human_count draw pick

/-- C3 (amended): while `consecutive_ai_messages` has reached
`MAX_AI_CHAIN_MESSAGES`, the probabilistic path selects no responder for a
bot-authored message regardless of the outcome of any random draw; hence for a
bot-authored message that contains no directed mention of another online bot,
the scheduler selects no bot at all.  (A directed mention still selects its
bot—see the counterexample.) -/
theorem chain_cap_spec (ai_bots : List AiBotRuntime) (bot_identities : List RStr)
    (sender_identity message_text : RStr) (consecutive_ai_messages : Nat)
    (online_human_count : Nat) (draw : Bool) (pick : Nat)
    (hchain : MAX_AI_CHAIN_MESSAGES ≤ consecutive_ai_messages) :
    choose_responder_bot ai_bots bot_identities sender_identity true
      consecutive_ai_messages online_human_count draw pick = none ∧
    (find_directed_bot ai_bots sender_identity message_text = none →
      scheduler_select ai_bots bot_identities sender_identity message_text true
        consecutive_ai_messages online_human_count draw pick = none) := by
  constructor
  · simp [choose_responder_bot, hchain]
  · intro hdir
    simp [scheduler_select, hdir, choose_responder_bot, hchain]

/-- Witness for C3 at a concrete tick: one online bot named "Ai", a
bot-authored message "ola" (no mention), chain counter at the cap: no bot is
selected whatever the draw. -/
theorem chain_cap_witness :
    MAX_AI_CHAIN_MESSAGES ≤ 5 ∧
    scheduler_select [⟨⟨rstr "Ai", rstr "Mago"⟩, true, some (rstr "id_ai")⟩]
      [rstr "id_ai", rstr "id_bob"] (rstr "id_bob") (rstr "ola") true 5 1 true 0 =
      none := by
  refine ⟨by decide, ?_⟩
  exact (chain_cap_spec [⟨⟨rstr "Ai", rstr "Mago"⟩, true, some (rstr "id_ai")⟩]
    [rstr "id_ai", rstr "id_bob"] (rstr "id_bob") (rstr "ola") 5 1 true 0
    (by decide)).2 (by decide)

/-- C3 counterexample: the same tick but with message "oi Ai", which mentions
the online bot "Ai": `find_directed_bot` fires despite the saturated chain
counter, so the scheduler does select a bot — the claim's "no bot is selected
to respond to that message" is false as stated. -/
theorem chain_cap_counterexample :
    MAX_AI_CHAIN_MESSAGES ≤ 5 ∧
    scheduler_select [⟨⟨rstr "Ai", rstr "Mago"⟩, true, some (rstr "id_ai")⟩]
      [rstr "id_ai", rstr "id_bob"] (rstr "id_bob") (rstr "oi Ai") true 5 1 false 0 =
      some ⟨⟨rstr "Ai", rstr "Mago"⟩, true, some (rstr "id_ai")⟩ := by
  constructor
  · decide
  · decide

/-- C4: the directed-mention check is a deterministic function of the message:
whenever some online bot other than the sender has its name contained
case-insensitively in the text, `find_directed_bot` selects such a bot
(online, name contained, connection identity different from the sender's); and
when no online bot's name occurs in the text it selects no bot. -/
theorem directed_mention_spec (ai_bots : List AiBotRuntime)
    (sender_identity message_text : RStr) :
    ((∃ b ∈ ai_bots, b.online = true ∧ identityAllows b sender_identity = true ∧
        containsSub (lowerStr message_text) (lowerStr b.profile.name) = true) →
      ∃ b, find_directed_bot ai_bots sender_identity message_text = some b ∧
        b ∈ ai_bots ∧ b.online = true ∧ identityAllows b sender_identity = true ∧
        containsSub (lowerStr message_text) (lowerStr b.profile.name) = true) ∧
    ((∀ b ∈ ai_bots, b.online = true →
        containsSub (lowerStr message_text) (lowerStr b.profile.name) = false) →
      find_directed_bot ai_bots sender_identity message_text = none) := by
  constructor
  · rintro ⟨b, hb, hon, hid, hsub⟩
    have hmem : b ∈ (ai_bots.filter (fun b => b.online)).filter
        (fun b => identityAllows b sender_identity) := by
      rw [List.mem_filter, List.mem_filter]
      exact ⟨⟨hb, hon⟩, hid⟩
    have hsome : (((ai_bots.filter (fun b => b.online)).filter
        (fun b => identityAllows b sender_identity)).find?
          (fun b => containsSub (lowerStr message_text)
            (lowerStr b.profile.name))).isSome :=
      List.find?_isSome.2 ⟨b, hmem, hsub⟩
    obtain ⟨x, hx⟩ := Option.isSome_iff_exists.1 hsome
    have hxmem := List.mem_of_find?_eq_some hx
    rw [List.mem_filter, List.mem_filter] at hxmem
    exact ⟨x, hx, hxmem.1.1, hxmem.1.2, hxmem.2, by simpa using List.find?_some hx⟩
  · intro hall
    apply List.find?_eq_none.2
    intro x hxmem
    rw [List.mem_filter, List.mem_filter] at hxmem
    simp only [Bool.not_eq_true]
    exact hall x hxmem.1.1 hxmem.1.2

/-- Witness for C4 at a concrete message: the text "oi ai, tudo bem?" contains
the online bot name "Ai" case-insensitively, so a matching bot is selected;
the text "bom dia" contains no bot name, so none is. -/
theorem directed_mention_witness :
    (∃ b, find_directed_bot
        [⟨⟨rstr "Ai", rstr "Mago"⟩, true, some (rstr "id_ai")⟩]
        (rstr "id_rafael") (rstr "oi ai, tudo bem?") = some b ∧
      b ∈ [⟨⟨rstr "Ai", rstr "Mago"⟩, true, some (rstr "id_ai")⟩] ∧
      b.online = true ∧ identityAllows b (rstr "id_rafael") = true ∧
      containsSub (lowerStr (rstr "oi ai, tudo bem?"))
        (lowerStr b.profile.name) = true) ∧
    find_directed_bot [⟨⟨rstr "Ai", rstr "Mago"⟩, true, some (rstr "id_ai")⟩]
      (rstr "id_rafael") (rstr "bom dia") = none := by
  constructor
  · exact (directed_mention_spec _ _ _).1 (by decide)
  · exact (directed_mention_spec _ _ _).2 (by decide)

/-! ### The delivery queue (claim C5) -/

/-- The per-bot drain loop of one tick (`run_app`):
`while let Some(reply) = queue.front().cloned() { if send ok pop else break }`.
`ok i` abstracts the success of the `send_message` call for the element that
started this tick at position `i`. -/
def drain_pending (ok : Nat → Bool) : Nat → List RStr → List RStr
  | _, [] => []
  | i, r :: rest => if ok i then drain_pending ok (i + 1) rest else r :: rest

/-- `pending_ai_replies.get_mut(key)` followed by an in-place update,
with the `HashMap` modelled as an association list: a missing key leaves the
map unchanged (`let Some(queue) = .. else continue`). -/
def updateQueue (queues : List (RStr × List RStr)) (key : RStr)
    (f : List RStr → List RStr) : List (RStr × List RStr) :=
  queues.map (fun p => if p.1 == key then (p.1, f p.2) else p)

/-- Lookup in the pending-replies map. -/
def lookupQueue (queues : List (RStr × List RStr)) (key : RStr) :
    Option (List RStr) :=
  (queues.find? (fun p => p.1 == key)).map Prod.snd

/-- The delivery pass of one main-loop tick (`run_app`): for each bot in
order, skip it when its `online` atomic is false, otherwise drain its queue.
`ok name i` abstracts the success of the `i`-th send attempt of the bot named
`name` during this tick. -/
def publish_pending (ok : RStr → Nat → Bool) (ai_bots : List AiBotRuntime)
    (queues : List (RStr × List RStr)) : List (RStr × List RStr) :=
  ai_bots.foldl (fun qs bot =>
    if !bot.online then qs
    else updateQueue qs bot.profile.name (drain_pending (ok bot.profile.name) 0))
    queues

theorem drain_pending_spec (ok : Nat → Bool) :
    ∀ (q : List RStr) (i : Nat), ∃ k ≤ q.length,
      drain_pending ok i q = q.drop k ∧ (∀ j < k, ok (i + j) = true) ∧
      (k < q.length → ok (i + k) = false) := by
  intro q
  induction q with
  | nil =>
    intro i
    exact ⟨0, by simp, by simp [drain_pending], by omega, by simp⟩
  | cons r rest ih =>
    intro i
    rw [drain_pending]
    by_cases hok : ok i = true
    · obtain ⟨k, hk, heq, hsucc, hfail⟩ := ih (i + 1)
      rw [if_pos hok]
      refine ⟨k + 1, by simpa using hk, by simpa using heq, ?_, ?_⟩
      · intro j hj
        cases j with
        | zero => simpa using hok
        | succ j =>
          have := hsucc j (by omega)
          rw [← this]
          ring_nf
      · intro hlt
        have := hfail (by simpa using hlt)
        rw [← this]
        ring_nf
    · rw [if_neg hok]
      exact ⟨0, by simp, by simp, by omega,
        fun _ => by simpa using Bool.not_eq_true _ ▸ hok⟩

theorem lookupQueue_updateQueue_ne (queues : List (RStr × List RStr))
    (key name : RStr) (f : List RStr → List RStr) (h : key ≠ name) :
    lookupQueue (updateQueue queues key f) name = lookupQueue queues name := by
  induction queues with
  | nil => rfl
  | cons p t ih =>
    simp only [updateQueue, List.map_cons, lookupQueue]
    by_cases hk : p.1 == key
    · rw [if_pos hk]
      have hpk : p.1 = key := by simpa using hk
      have hne : (p.1 == name) = false := by
        simp [hpk, h]
      rw [List.find?_cons_of_neg _ (by simp [hne]),
        List.find?_cons_of_neg _ (by simp [hne])]
      simpa [lookupQueue, updateQueue] using ih
    · rw [if_neg (by simpa using hk)]
      by_cases hn : p.1 == name
      · rw [List.find?_cons_of_pos _ (by simpa using hn),
          List.find?_cons_of_pos _ (by simpa using hn)]
      · rw [List.find?_cons_of_neg _ (by simpa using hn),
          List.find?_cons_of_neg _ (by simpa using hn)]
        simpa [lookupQueue, updateQueue] using ih

theorem lookupQueue_updateQueue_eq (queues : List (RStr × List RStr))
    (key : RStr) (f : List RStr → List RStr) :
    lookupQueue (updateQueue queues key f) key =
      (lookupQueue queues key).map f := by
  induction queues with
  | nil => rfl
  | cons p t ih =>
    simp only [updateQueue, List.map_cons, lookupQueue]
    by_cases hk : p.1 == key
    · rw [if_pos hk]
      rw [List.find?_cons_of_pos _ (by simpa using hk),
        List.find?_cons_of_pos _ (by simpa using hk)]
      rfl
    · rw [if_neg (by simpa using hk)]
      rw [List.find?_cons_of_neg _ (by simpa using hk),
        List.find?_cons_of_neg _ (by simpa using hk)]
      simpa [lookupQueue, updateQueue] using ih

theorem publish_pending_offline (ok : RStr → Nat → Bool) (name : RStr) :
    ∀ (ai_bots : List AiBotRuntime) (queues : List (RStr × List RStr)),
      (∀ b ∈ ai_bots, ¬(b.profile.name = name ∧ b.online = true)) →
      lookupQueue (publish_pending ok ai_bots queues) name =
        lookupQueue queues name := by
  intro ai_bots
  induction ai_bots with
  | nil =>
    intro queues _
    rfl
  | cons bot rest ih =>
    intro queues hall
    simp only [publish_pending, List.foldl_cons]
    by_cases hon : bot.online = true
    · have hne : bot.profile.name ≠ name := by
        intro heq
        exact hall bot (by simp) ⟨heq, hon⟩
      rw [if_neg (by simp [hon])]
      have := ih (updateQueue queues bot.profile.name
        (drain_pending (ok bot.profile.name) 0))
        (fun b hb => hall b (List.mem_cons_of_mem _ hb))
      simp only [publish_pending] at this
      rw [this, lookupQueue_updateQueue_ne _ _ _ _ hne]
    · rw [if_pos (by simpa using hon)]
      have := ih queues (fun b hb => hall b (List.mem_cons_of_mem _ hb))
      simpa only [publish_pending] using this

/-- C5: on every tick, a bot whose `online` flag is false has its
pending-reply queue left untouched; an online bot's queue is drained from the
front — the tick removes exactly the longest all-successful prefix, every
removed reply's send succeeded, the first failure (if any) stops the drain
with the failed reply still at the head — so no reply is dropped or
reordered (the result is always a suffix of the queue). -/
theorem delivery_queue_spec (ok : RStr → Nat → Bool) (okq : Nat → Bool)
    (q : List RStr) (ai_bots : List AiBotRuntime)
    (queues : List (RStr × List RStr)) (name : RStr) (bot : AiBotRuntime) :
    (∃ k ≤ q.length, drain_pending okq 0 q = q.drop k ∧
      (∀ j < k, okq j = true) ∧ (k < q.length → okq k = false) ∧
      (drain_pending okq 0 q).head? = q[k]?) ∧
    ((∀ b ∈ ai_bots, ¬(b.profile.name = name ∧ b.online = true)) →
      lookupQueue (publish_pending ok ai_bots queues) name =
        lookupQueue queues name) ∧
    (bot.online = true →
      lookupQueue (publish_pending ok [bot] queues) bot.profile.name =
        (lookupQueue queues bot.profile.name).map
          (drain_pending (ok bot.profile.name) 0)) := by
  refine ⟨?_, publish_pending_offline ok name ai_bots queues, ?_⟩
  · obtain ⟨k, hk, heq, hsucc, hfail⟩ := drain_pending_spec okq q 0
    refine ⟨k, hk, heq, fun j hj => by simpa using hsucc j hj,
      fun h => by simpa using hfail h, ?_⟩
    rw [heq, List.head?_drop]
  · intro hon
    simp only [publish_pending, List.foldl_cons, List.foldl_nil]
    rw [if_neg (by simp [hon])]
    exact lookupQueue_updateQueue_eq queues bot.profile.name _

/-- Witness for C5 at a concrete tick: a bot with queue `[a, b, c]` whose
first send succeeds and second fails keeps exactly `[b, c]` (with the failed
reply at the head), an offline bot's queue stays untouched, and an online
bot's stored queue is the drained one. -/
theorem delivery_queue_witness :
    (∃ k ≤ ([rstr "a", rstr "b", rstr "c"] : List RStr).length,
      drain_pending (fun i => i == 0) 0 [rstr "a", rstr "b", rstr "c"] =
        ([rstr "a", rstr "b", rstr "c"] : List RStr).drop k ∧
      (∀ j < k, (fun i : Nat => i == 0) j = true) ∧
      (k < ([rstr "a", rstr "b", rstr "c"] : List RStr).length →
        (fun i : Nat => i == 0) k = false) ∧
      (drain_pending (fun i => i == 0) 0 [rstr "a", rstr "b", rstr "c"]).head? =
        ([rstr "a", rstr "b", rstr "c"] : List RStr)[k]?) ∧
    lookupQueue (publish_pending (fun _ _ => true)
      [⟨⟨rstr "Ai", rstr "Mago"⟩, false, none⟩]
      [(rstr "Ai", [rstr "a"])]) (rstr "Ai") = some [rstr "a"] ∧
    lookupQueue (publish_pending (fun _ _ => true)
      [⟨⟨rstr "Ai", rstr "Mago"⟩, true, none⟩]
      [(rstr "Ai", [rstr "a"])]) (rstr "Ai") = some [] := by
  refine ⟨?_, ?_, ?_⟩
  · exact (delivery_queue_spec (fun _ _ => true) (fun i => i == 0)
      [rstr "a", rstr "b", rstr "c"] [] [] (rstr "x")
      ⟨⟨rstr "Ai", rstr "Mago"⟩, true, none⟩).1
  · rw [(delivery_queue_spec (fun _ _ => true) (fun i => i == 0) []
      [⟨⟨rstr "Ai", rstr "Mago"⟩, false, none⟩]
      [(rstr "Ai", [rstr "a"])] (rstr "Ai")
      ⟨⟨rstr "Ai", rstr "Mago"⟩, true, none⟩).2.1 (by decide)]
    decide
  · rw [(delivery_queue_spec (fun _ _ => true) (fun i => i == 0) []
      [] [(rstr "Ai", [rstr "a"])] (rstr "x")
      ⟨⟨rstr "Ai", rstr "Mago"⟩, true, none⟩).2.2 rfl]
    decide

/-! ### The room-context builder (`src/client/src/ai/context.rs`) -/

/-- `src/client/src/ai/mod.rs`: recent-message window size. -/
def MAX_CONTEXT_MESSAGES : Nat := 16

/-- `src/client/src/ai/mod.rs`: per-context-message character cap. -/
def MAX_CONTEXT_MESSAGE_LEN : Nat := 320

/-- The `users_by_identity` name lookup of `build_prompt_context` followed by
`.map(str::trim).filter(|n| !n.is_empty())`, falling back to
`short_identity`.  A `HashMap` collected from an iterator keeps the last row
on duplicate keys. -/
def resolveName (users : List UiUser) (id : RStr) : RStr :=
  match (users.reverse.find? (fun u => u.identity == id)).map UiUser.name with
  | some nm => if (rustTrim nm).isEmpty then short_identity id else rustTrim nm
  | none => short_identity id

/-- `src/client/src/ai/context.rs`, `AiPromptContext`. -/
structure AiPromptContext where
  requester_identity : RStr
  requester_name : RStr
  online_users : List RStr
  recent_messages : List RStr
deriving DecidableEq

/-- The message-selection stage of `build_prompt_context`: iterate the
timeline newest first, keep non-empty messages whose sender is the literal
"System" or a currently-online identity, and take the window (the final
formatting and re-reversal happen in `build_prompt_context`). -/
def contextMessages (s : AppState) : List UiMessage :=
  ((s.ui.messages.reverse.filter (fun m => !(rustTrim m.text).isEmpty)).filter
    (fun m => m.sender == rstr "System" ||
      s.ui.users.any (fun u => u.online && u.identity == m.sender))).take
    MAX_CONTEXT_MESSAGES

/-- The line format of one transcript entry of `build_prompt_context`. -/
def formatContextMessage (users : List UiUser) (m : UiMessage) : RStr :=
  let sender := resolveName users m.sender
  let text := truncate_for_context m.text MAX_CONTEXT_MESSAGE_LEN
  if (rustTrim m.sent_at).isEmpty then sender ++ rstr ": " ++ text
  else rstr "[" ++ rustTrim m.sent_at ++ rstr "] " ++ sender ++ rstr ": " ++ text

/-- `src/client/src/ai/context.rs`, `build_prompt_context`. -/
def build_prompt_context (s : AppState) : AiPromptContext :=
  let requester_identity := s.my_identity.getD []
  { requester_identity := requester_identity
    requester_name := resolveName s.ui.users requester_identity
    online_users := (s.ui.users.filter (fun u => u.online)).map (fun u =>
      (if (rustTrim u.name).isEmpty then short_identity u.identity else u.name) ++
        rstr " (" ++ short_identity u.identity ++ rstr ")")
    recent_messages :=
      ((contextMessages s).map (formatContextMessage s.ui.users)).reverse }

/-- C8 (amended): the online-user roster of the prompt context lists exactly
the users whose online flag is true; and — provided user identities are
pairwise distinct and no user row carries the literal identity "System", both
guaranteed by the server's primary key and identity scheme — the recent-message
transcript contains no message whose sender is a user marked offline.
(Messages whose sender is the literal string "System", the locally synthesized
notices, are always included; see the counterexample.) -/
theorem prompt_context_spec (s : AppState)
    (hsys : ∀ u ∈ s.ui.users, u.identity ≠ rstr "System")
    (hnodup : s.ui.users.Pairwise (fun a b => a.identity ≠ b.identity)) :
    ((build_prompt_context s).online_users =
      (s.ui.users.filter (fun u => u.online)).map (fun u =>
        (if (rustTrim u.name).isEmpty then short_identity u.identity else u.name) ++
          rstr " (" ++ short_identity u.identity ++ rstr ")")) ∧
    (∀ e ∈ (build_prompt_context s).online_users,
      ∃ u ∈ s.ui.users, u.online = true) ∧
    (∀ m ∈ contextMessages s, ∀ u ∈ s.ui.users,
      u.identity = m.sender → u.online = true) ∧
    ((build_prompt_context s).recent_messages =
      ((contextMessages s).map (formatContextMessage s.ui.users)).reverse) := by
  refine ⟨rfl, ?_, ?_, rfl⟩
  · intro e he
    simp only [build_prompt_context, List.mem_map, List.mem_filter] at he
    obtain ⟨u, ⟨hu, hon⟩, _⟩ := he
    exact ⟨u, hu, hon⟩
  · intro m hm u hu hid
    have hm2 : m ∈ (s.ui.messages.reverse.filter
        (fun m => !(rustTrim m.text).isEmpty)).filter
        (fun m => m.sender == rstr "System" ||
          s.ui.users.any (fun u => u.online && u.identity == m.sender)) :=
      (List.take_sublist _ _).subset hm
    rw [List.mem_filter] at hm2
    rcases Bool.or_eq_true_iff.1 hm2.2 with hS | hAny
    · have : m.sender = rstr "System" := by simpa using hS
      exact absurd (hid.trans this) (hsys u hu)
    · rw [List.any_eq_true] at hAny
      obtain ⟨v, hv, hvp⟩ := hAny
      rw [Bool.and_eq_true] at hvp
      have hvid : v.identity = m.sender := by simpa using hvp.2
      by_cases huv : u = v
      · rw [huv]
        exact hvp.1
      · have hne := List.Pairwise.forall (fun a b h => (Ne.symm h)) hnodup hu hv huv
        exact absurd (hid.trans hvid.symm) hne

/-- C8 counterexample: a state holding a user row whose identity is the
literal "System", marked offline, with one timeline message sent under that
identity: the message passes the transcript filter (the builder always keeps
"System"-tagged messages), so the transcript does contain a message whose
sender is a user marked offline. -/
theorem prompt_context_counterexample :
    (∃ m ∈ contextMessages
        { ui := { users := [⟨rstr "System", rstr "Sys", false⟩],
                  messages := [⟨1, rstr "System", rstr "oi", []⟩] } },
      ∃ u ∈ [(⟨rstr "System", rstr "Sys", false⟩ : UiUser)],
        u.identity = m.sender ∧ u.online = false) ∧
    (build_prompt_context
        { ui := { users := [⟨rstr "System", rstr "Sys", false⟩],
                  messages := [⟨1, rstr "System", rstr "oi", []⟩] } }).recent_messages =
      [rstr "Sys: oi"] := by
  constructor
  · decide
  · decide

/-- Witness for C8 at a concrete state: with distinct non-"System" identities,
an offline user's message is excluded from the transcript while an online
user's message is kept. -/
theorem prompt_context_witness :
    (∀ u ∈ [(⟨rstr "id_on", rstr "Lia", true⟩ : UiUser),
            ⟨rstr "id_off", rstr "Teste", false⟩], u.identity ≠ rstr "System") ∧
    (∀ m ∈ contextMessages
        { ui := { users := [⟨rstr "id_on", rstr "Lia", true⟩,
                            ⟨rstr "id_off", rstr "Teste", false⟩],
                  messages := [⟨1, rstr "id_off", rstr "msg antiga", []⟩,
                               ⟨2, rstr "id_on", rstr "msg atual", []⟩] } },
      ∀ u ∈ [(⟨rstr "id_on", rstr "Lia", true⟩ : UiUser),
             ⟨rstr "id_off", rstr "Teste", false⟩],
        u.identity = m.sender → u.online = true) := by
  refine ⟨by decide, ?_⟩
  exact (prompt_context_spec
    { ui := { users := [⟨rstr "id_on", rstr "Lia", true⟩,
                        ⟨rstr "id_off", rstr "Teste", false⟩],
              messages := [⟨1, rstr "id_off", rstr "msg antiga", []⟩,
                           ⟨2, rstr "id_on", rstr "msg atual", []⟩] } }
    (by decide) (by decide)).2.2.1

/-! ### The server reducers (`src/server/src/lib.rs`) -/

/-- A row of the `user` table. -/
structure ServerUser where
  identity : RStr
  name : RStr
  online : Bool
deriving DecidableEq

/-- One reducer invocation, tagged with the calling identity (`ctx.sender`). -/
inductive ServerEvent
  | connected (sender : RStr)
  | disconnected (sender : RStr)
  | setName (sender : RStr) (new_name : RStr)
  | sendMessage (sender : RStr) (text : RStr)
deriving DecidableEq

/-- `ctx.db.user().identity().find(..)` on the primary key. -/
def findUser (db : List ServerUser) (id : RStr) : Option ServerUser :=
  db.find? (fun u => u.identity == id)

/-- `ctx.db.user().identity().update(..)`: replace the row with that key. -/
def updateUser (db : List ServerUser) (u : ServerUser) : List ServerUser :=
  db.map (fun v => if v.identity == u.identity then u else v)

/-- `src/server/src/lib.rs`, `identity_connected`: create the row offline, or
reset an existing row to offline, until the name is confirmed again. -/
def identity_connected (db : List ServerUser) (sender : RStr) : List ServerUser :=
  match findUser db sender with
  | none => db ++ [⟨sender, rstr "Anônimo", false⟩]
  | some u => updateUser db { u with online := false }

/-- `src/server/src/lib.rs`, `identity_disconnected`. -/
def identity_disconnected (db : List ServerUser) (sender : RStr) :
    List ServerUser :=
  match findUser db sender with
  | none => db
  | some u => updateUser db { u with online := false }

/-- `src/server/src/lib.rs`, `set_name`: a trimmed non-empty name sets the
name and flips the row online. -/
def set_name (db : List ServerUser) (sender new_name : RStr) : List ServerUser :=
  let cleaned := rustTrim new_name
  if cleaned.isEmpty then db
  else
    match findUser db sender with
    | none => db
    | some u => updateUser db { u with name := cleaned, online := true }

/-- One reducer step on the `user` table.  `send_message` only inserts into
the `message` table and never touches user rows. -/
def applyReducer (db : List ServerUser) : ServerEvent → List ServerUser
  | .connected s => identity_connected db s
  | .disconnected s => identity_disconnected db s
  | .setName s n => set_name db s n
  | .sendMessage _ _ => db

/-- The online flag of the row keyed by `id` (`false` when absent). -/
def userOnline (db : List ServerUser) (id : RStr) : Bool :=
  ((findUser db id).map ServerUser.online).getD false

theorem option_some_or {α : Type} (a : α) (o : Option α) :
    (some a).or o = some a := rfl

theorem option_none_or {α : Type} (o : Option α) :
    (Option.none).or o = o := rfl

theorem findUser_singleton (row : ServerUser) (id : RStr) :
    findUser [row] id = if row.identity == id then some row else none := by
  unfold findUser
  cases h : (row.identity == id) <;> simp [List.find?_cons, h]

theorem findUser_append_single (db : List ServerUser) (row : ServerUser)
    (id : RStr) :
    findUser (db ++ [row]) id = (findUser db id).or (findUser [row] id) := by
  unfold findUser
  exact List.find?_append

theorem findUser_updateUser (db : List ServerUser) (u : ServerUser) (id : RStr) :
    findUser (updateUser db u) id =
      (findUser db id).map
        (fun v => if v.identity == u.identity then u else v) := by
  unfold findUser updateUser
  rw [List.find?_map]
  have hp : ((fun v : ServerUser => v.identity == id) ∘
      fun v => if v.identity == u.identity then u else v) =
      (fun v : ServerUser => v.identity == id) := by
    funext v
    by_cases h : (v.identity == u.identity) = true
    · have hv : v.identity = u.identity := by simpa using h
      simp [Function.comp, h, hv]
    · simp [Function.comp, h]
  rw [hp]

theorem findUser_some {db : List ServerUser} {id : RStr} {u : ServerUser}
    (h : findUser db id = some u) : u.identity = id := by
  have := List.find?_some h
  simpa using this

theorem userOnline_updateUser_offline (db : List ServerUser) (u : ServerUser)
    (id : RStr) (hu : u.online = false)
    (h : userOnline (updateUser db u) id = true) : userOnline db id = true := by
  rw [userOnline, findUser_updateUser] at h
  rw [userOnline]
  cases hg : findUser db id with
  | none => rw [hg] at h; simp at h
  | some w =>
    rw [hg] at h
    simp only [Option.map_some', Option.getD_some] at h
    simp only [Option.map_some', Option.getD_some]
    by_cases hw : (w.identity == u.identity) = true
    · rw [if_pos hw] at h
      rw [h] at hu
      simp at hu
    · rw [if_neg hw] at h
      exact h

theorem userOnline_step (db : List ServerUser) (ev : ServerEvent) (id : RStr)
    (h : userOnline (applyReducer db ev) id = true) :
    userOnline db id = true ∨
      ∃ nm, ev = .setName id nm ∧ rustTrim nm ≠ [] := by
  cases ev with
  | connected s =>
    simp only [applyReducer, identity_connected] at h
    cases hf : findUser db s with
    | none =>
      rw [hf] at h
      rw [userOnline, findUser_append_single, findUser_singleton] at h
      cases hg : findUser db id with
      | some w =>
        rw [hg] at h
        rw [option_some_or] at h
        exact .inl (by rw [userOnline, hg]; exact h)
      | none =>
        rw [hg] at h
        rw [option_none_or] at h
        by_cases hs : ((⟨s, rstr "Anônimo", false⟩ : ServerUser).identity == id) = true
        · rw [if_pos hs] at h
          simp at h
        · rw [if_neg hs] at h
          simp at h
    | some u =>
      rw [hf] at h
      exact .inl (userOnline_updateUser_offline db _ id rfl h)
  | disconnected s =>
    simp only [applyReducer, identity_disconnected] at h
    cases hf : findUser db s with
    | none =>
      rw [hf] at h
      exact .inl h
    | some u =>
      rw [hf] at h
      exact .inl (userOnline_updateUser_offline db _ id rfl h)
  | setName s n =>
    simp only [applyReducer, set_name] at h
    by_cases he : (rustTrim n).isEmpty = true
    · rw [if_pos he] at h
      exact .inl h
    · rw [if_neg he] at h
      cases hf : findUser db s with
      | none =>
        rw [hf] at h
        exact .inl h
      | some u =>
        rw [hf] at h
        rw [userOnline, findUser_updateUser] at h
        cases hg : findUser db id with
        | none => rw [hg] at h; simp at h
        | some w =>
          rw [hg] at h
          simp only [Option.map_some', Option.getD_some] at h
          by_cases hw : w.identity = u.identity
          · have hid : w.identity = id := findUser_some hg
            have hus : u.identity = s := findUser_some hf
            refine .inr ⟨n, ?_, by simpa [List.isEmpty_iff] using he⟩
            rw [← hid, hw, hus]
          · rw [if_neg (by simp [hw])] at h
            exact .inl (by rw [userOnline, hg]; exact h)
  | sendMessage s t =>
    exact .inl h

theorem connected_leaves_offline (db : List ServerUser) (s : RStr) :
    userOnline (applyReducer db (.connected s)) s = false := by
  simp only [applyReducer, identity_connected]
  cases hf : findUser db s with
  | none =>
    rw [userOnline, findUser_append_single, findUser_singleton, hf]
    simp only [Option.none_or]
    rw [if_pos (by simp)]
    rfl
  | some u =>
    rw [userOnline, findUser_updateUser, hf]
    have hus : u.identity = s := findUser_some hf
    simp only [Option.map_some', Option.getD_some]
    rw [if_pos (by simp [hus])]

theorem disconnected_leaves_offline (db : List ServerUser) (s : RStr) :
    userOnline (applyReducer db (.disconnected s)) s = false := by
  simp only [applyReducer, identity_disconnected]
  cases hf : findUser db s with
  | none =>
    rw [userOnline, hf]
    rfl
  | some u =>
    rw [userOnline, findUser_updateUser, hf]
    have hus : u.identity = s := findUser_some hf
    simp only [Option.map_some', Option.getD_some]
    rw [if_pos (by simp [hus])]

/-- C9: across any sequence of reducer invocations, a user row's online flag
becomes true only through `set_name` called by that identity with a name that
is non-empty after trimming; `identity_connected` and `identity_disconnected`
always leave the caller's row offline. -/
theorem online_only_via_set_name (db : List ServerUser) (ev : ServerEvent)
    (id : RStr) (evs : List ServerEvent)
    (h : userOnline (applyReducer db ev) id = true) :
    (userOnline db id = true ∨ ∃ nm, ev = .setName id nm ∧ rustTrim nm ≠ []) ∧
    (∀ s, userOnline (applyReducer db (.connected s)) s = false) ∧
    (∀ s, userOnline (applyReducer db (.disconnected s)) s = false) ∧
    (userOnline (evs.foldl applyReducer db) id = true →
      userOnline db id = true ∨
        ∃ e ∈ evs, ∃ nm, e = ServerEvent.setName id nm ∧ rustTrim nm ≠ []) := by
  refine ⟨userOnline_step db ev id h, connected_leaves_offline db,
    disconnected_leaves_offline db, ?_⟩
  clear h
  induction evs generalizing db with
  | nil =>
    intro h
    exact .inl h
  | cons e rest ih =>
    intro h
    rw [List.foldl_cons] at h
    rcases ih (applyReducer db e) h with h2 | h2
    · rcases userOnline_step db e id h2 with h3 | ⟨nm, hnm, hne⟩
      · exact .inl h3
      · exact .inr ⟨e, by simp, nm, hnm, hne⟩
    · obtain ⟨e', he', nm, hnm, hne⟩ := h2
      exact .inr ⟨e', List.mem_cons_of_mem _ he', nm, hnm, hne⟩

/-- Witness for C9 at a concrete run: a freshly connected (offline) row goes
online through `set_name "Rafael"`, and the theorem attributes it to that
`set_name` call. -/
theorem online_only_via_set_name_witness :
    userOnline (applyReducer [⟨rstr "id", rstr "Anônimo", false⟩]
        (.setName (rstr "id") (rstr "Rafael"))) (rstr "id") = true ∧
    (userOnline [(⟨rstr "id", rstr "Anônimo", false⟩ : ServerUser)] (rstr "id") =
        true ∨
      ∃ nm, ServerEvent.setName (rstr "id") (rstr "Rafael") =
          ServerEvent.setName (rstr "id") nm ∧ rustTrim nm ≠ []) := by
  have happ : userOnline (applyReducer [⟨rstr "id", rstr "Anônimo", false⟩]
      (.setName (rstr "id") (rstr "Rafael"))) (rstr "id") = true := by decide
  exact ⟨happ, (online_only_via_set_name [⟨rstr "id", rstr "Anônimo", false⟩]
    (.setName (rstr "id") (rstr "Rafael")) (rstr "id") [] happ).1⟩

/-! ### Identity shortening (claim C7) -/

theorem utf8Len_eq_length {s : RStr} (h : ∀ c ∈ s, c.utf8Size = 1) :
    utf8Len s = s.length := by
  induction s with
  | nil => rfl
  | cons c rest ih =>
    simp only [utf8Len, List.map_cons, List.sum_cons, List.length_cons]
    rw [h c (by simp)]
    have := ih fun d hd => h d (List.mem_cons_of_mem _ hd)
    simp only [utf8Len] at this
    omega

theorem utf8ByteTake_eq_take {s : RStr} (h : ∀ c ∈ s, c.utf8Size = 1) :
    ∀ n, utf8ByteTake n s = s.take n := by
  induction s with
  | nil => intro n; simp [utf8ByteTake]
  | cons c rest ih =>
    intro n
    rw [utf8ByteTake]
    rw [h c (by simp)]
    cases n with
    | zero => simp
    | succ m =>
      rw [if_pos (by omega)]
      rw [ih (fun d hd => h d (List.mem_cons_of_mem _ hd)) (m + 1 - 1)]
      simp

theorem utf8ByteDrop_eq_drop {s : RStr} (h : ∀ c ∈ s, c.utf8Size = 1) :
    ∀ n, utf8ByteDrop n s = s.drop n := by
  induction s with
  | nil => intro n; simp [utf8ByteDrop]
  | cons c rest ih =>
    intro n
    rw [utf8ByteDrop]
    rw [h c (by simp)]
    cases n with
    | zero => simp
    | succ m =>
      rw [if_pos (by omega)]
      rw [ih (fun d hd => h d (List.mem_cons_of_mem _ hd)) (m + 1 - 1)]
      simp

/-- C7 (amended): `short_identity` measures length the way the source does —
in UTF-8 bytes, which for ASCII identities equals the character count.  Under
that reading: an identity of length at most 18 is returned unchanged, and a
longer one becomes its first 10 characters, "..", and its last 6 characters. -/
theorem short_identity_spec (identity : RStr)
    (hascii : ∀ c ∈ identity, c.utf8Size = 1) :
    (identity.length ≤ 18 → short_identity identity = identity) ∧
    (18 < identity.length →
      short_identity identity =
        identity.take 10 ++ rstr ".." ++ identity.drop (identity.length - 6)) := by
  have hlen : utf8Len identity = identity.length := utf8Len_eq_length hascii
  constructor
  · intro h
    rw [short_identity, if_pos (by rw [hlen]; exact h)]
  · intro h
    rw [short_identity, if_neg (by rw [hlen]; omega)]
    rw [hlen, utf8ByteTake_eq_take hascii, utf8ByteDrop_eq_drop hascii]
    have hmin : min 10 identity.length = 10 := by omega
    rw [hmin]

/-- Witness for C7 at the repository's own test vectors: a short ASCII
identity is unchanged, a 26-character one is shortened to
`head(10) ++ ".." ++ tail(6)`. -/
theorem short_identity_witness :
    short_identity (rstr "abc123") = rstr "abc123" ∧
    short_identity (rstr "abcdefghijklmnopqrstuvwxyz") =
      (rstr "abcdefghijklmnopqrstuvwxyz").take 10 ++ rstr ".." ++
        (rstr "abcdefghijklmnopqrstuvwxyz").drop
          ((rstr "abcdefghijklmnopqrstuvwxyz").length - 6) := by
  constructor
  · exact (short_identity_spec (rstr "abc123") (by decide)).1 (by decide)
  · exact (short_identity_spec (rstr "abcdefghijklmnopqrstuvwxyz")
      (by decide)).2 (by decide)

/-- C7 counterexample: eleven Greek alphas form an identity of 11 characters —
within the claimed 18-character limit — yet its UTF-8 length is 22 bytes, so
`short_identity` does not return it unchanged but slices it at byte offsets. -/
theorem short_identity_counterexample :
    (rstr "ααααααααααα").length ≤ 18 ∧
    short_identity (rstr "ααααααααααα") ≠ rstr "ααααααααααα" := by
  constructor
  · decide
  · decide
